import Mathlib

/-!
Verification of the rock-paper-scissors round pipeline from app.py and
app_cli.py. The two files share the same core: a move proposer
(choose_assistant_move, app.py lines 48-64) that extracts a move token
from a language-model completion and falls back to a random legal move,
and an outcome resolver (determine_result_and_update, app.py lines
66-92) that judges the round and appends a record to the history.
Python strings become Lean String, the machine-generated completion is
modelled as a function from the rendered prompt to the response text,
and the random draw of random.choice is an explicit index into the
choices list.
-/

/-- The three legal moves, app.py line 13:
choices = [gu, choki, pa] (rock, scissors, paper). -/
def choices : List String := ["グー", "チョキ", "パー"]

/-- Leading and trailing whitespace removal on the character list of a
string; models the Python str.strip() call with no arguments. -/
def stripChars (l : List Char) : List Char :=
  ((l.dropWhile Char.isWhitespace).reverse.dropWhile Char.isWhitespace).reverse

/-- One left-to-right sweep deleting every non-overlapping occurrence of
pat, leftmost first; this is the semantics of the Python call
s.replace(pat, ""). The Nat argument is recursion fuel bounding the
number of steps; each step consumes at least one character, so the
length of the input is enough fuel. -/
def removeAllAux (pat : List Char) : Nat → List Char → List Char
  | _, [] => []
  | 0, l => l
  | fuel + 1, c :: rest =>
    if pat ≠ [] ∧ pat.isPrefixOf (c :: rest) then
      removeAllAux pat fuel ((c :: rest).drop pat.length)
    else
      c :: removeAllAux pat fuel rest

/-- Delete every occurrence of pat from l, as Python s.replace(pat, "")
does. -/
def removeAll (pat l : List Char) : List Char := removeAllAux pat l.length l

/-- Python s.strip() lifted to String. -/
def pyStrip (s : String) : String := ⟨stripChars s.data⟩

/-- Python s.replace(pat, "") lifted to String. -/
def pyReplace (s pat : String) : String := ⟨removeAll pat.data s.data⟩

/-- The extraction step of the move proposer, app.py line 56:
response.content.strip().replace(marker, "").replace(bracket, "")
where marker is the five characters of the opening decoration and
bracket is the closing square bracket. -/
def extractChoice (response : String) : String :=
  pyReplace (pyReplace (pyStrip response) "[選択: ") "]"

/-- random.choice(choices), app.py line 60, with the random draw made
explicit as an index into the three-element choices list. -/
def randomChoice (draw : Fin 3) : String := choices.get ⟨draw.val, draw.isLt⟩

/-- One entry of the history list, app.py lines 85-90. The Python dict
keys are the Japanese words for round, you, assistant and result. -/
structure Record where
  round_index : Nat
  user_choice : String
  assistant_choice : String
  result : String
deriving DecidableEq

/-- The GameState TypedDict, app.py lines 18-22. -/
structure GameState where
  user_choice : String
  assistant_choice : String
  result : String
  history : List Record
deriving DecidableEq

/-- Text rendering of one history record, modelling the Python str()
conversion of a history entry; the exact formatting carries no weight in
any claim, only that it is a function of the record. -/
def renderRecord (r : Record) : String :=
  "ラウンド " ++ toString r.round_index ++ ": あなた: " ++ r.user_choice ++
    " vs アシスタント: " ++ r.assistant_choice ++ " - " ++ r.result

/-- Text rendering of the whole history, modelling str(current_history)
at app.py line 53. -/
def renderHistory (h : List Record) : String :=
  String.intercalate ", " (h.map renderRecord)

/-- The rendered prompt, app.py lines 35-42. The template interpolates
only the history placeholder; the user_choice keyword argument passed at
line 53 has no placeholder in the template and is therefore ignored,
which is why the parameter is unused here, exactly as in the source. -/
def formatPrompt (user_choice : String) (history : List Record) : String :=
  "あなたはじゃんけんの対戦相手です。 過去の履歴: " ++ renderHistory history ++
    " 選択肢: グー、チョキ、パー" ++
    " ユーザーの傾向を考慮し、勝つ可能性を高める手を「[選択: 手]」の形式で返してください。"

/-- The move proposer node, app.py lines 48-64. The llm parameter is
the external completion capability (prompt text in, response text out)
and draw is the random index consumed by the fallback. -/
def choose_assistant_move (state : GameState) (llm : String → String) (draw : Fin 3) :
    GameState :=
  let response := llm (formatPrompt state.user_choice state.history)
  let extracted := extractChoice response
  let assistant_choice := if extracted ∈ choices then extracted else randomChoice draw
  { state with assistant_choice := assistant_choice }

/-- The move the proposer stores for a given response text and random
draw; equal by definition to the assistant_choice field computed by
choose_assistant_move. -/
def pickedMove (response : String) (draw : Fin 3) : String :=
  if extractChoice response ∈ choices then extractChoice response else randomChoice draw

/-- The outcome computation of the resolver, app.py lines 72-79: tie on
equal moves, the three winning pairs give the human the win, everything
else is a loss for the human. The three result strings are the Japanese
sentences for tie, you win, you lose. -/
def judgeResult (user_choice assistant_choice : String) : String :=
  if user_choice = assistant_choice then "あいこです"
  else if (user_choice = "グー" ∧ assistant_choice = "チョキ") ∨
      (user_choice = "チョキ" ∧ assistant_choice = "パー") ∨
      (user_choice = "パー" ∧ assistant_choice = "グー") then "あなたの勝ちです"
  else "あなたの負けです"

/-- The outcome resolver node, app.py lines 66-92: judge the round,
store the result, and append one record whose round index is the
history length before the append plus one. -/
def determine_result_and_update (state : GameState) : GameState :=
  let result := judgeResult state.user_choice state.assistant_choice
  { state with
    result := result
    history := state.history ++
      [{ round_index := state.history.length + 1
         user_choice := state.user_choice
         assistant_choice := state.assistant_choice
         result := result }] }

/-- One full round as the compiled workflow runs it, app.py lines
98-113 and 142-151: choose_assistant_move feeds
determine_result_and_update on a fresh state built from the human move
and the shared history. -/
def playRound (user_choice response : String) (draw : Fin 3) (history : List Record) :
    GameState :=
  determine_result_and_update
    (choose_assistant_move
      { user_choice := user_choice, assistant_choice := "", result := "", history := history }
      (fun _ => response) draw)

/-- The per-round external inputs of one workflow invocation: the human
move, the completion response, and the random draw. -/
structure RoundInput where
  user_choice : String
  response : String
  draw : Fin 3
deriving DecidableEq

/-- Sequential rounds threading the history, as the presentation loop
does in app_cli.py lines 155-169. -/
def playRounds (history : List Record) : List RoundInput → List Record
  | [] => history
  | i :: rest => playRounds (playRound i.user_choice i.response i.draw history).history rest

/-- History invariant: round indices are exactly 1..N in order and all
stored moves are legal. -/
def goodHistory (h : List Record) : Prop :=
  h.map Record.round_index = List.range' 1 h.length ∧
  ∀ r ∈ h, r.user_choice ∈ choices ∧ r.assistant_choice ∈ choices

/-- The fixed beats-relation of the specification: rock beats scissors,
scissors beats paper, paper beats rock. -/
def beats (u a : String) : Prop :=
  (u = "グー" ∧ a = "チョキ") ∨ (u = "チョキ" ∧ a = "パー") ∨ (u = "パー" ∧ a = "グー")

instance beatsDecidable (u a : String) : Decidable (beats u a) := by
  unfold beats
  infer_instance

/-- The extraction function exactly as claim C7 words it: strip
surrounding whitespace, then remove the fixed marker if it stands at
the very start, then remove the closing bracket if it stands at the
very end. Written from the claim, to be compared with extractChoice,
which is written from the source. -/
def claimedExtract (r : String) : String :=
  let s := pyStrip r
  let s1 : String :=
    if "[選択: ".data.isPrefixOf s.data then ⟨s.data.drop "[選択: ".data.length⟩ else s
  if "]".data.isSuffixOf s1.data then ⟨s1.data.dropLast⟩ else s1

/-- Index of the leftmost occurrence of pat in l, if any. Part of the
spec-side reading of occurrence removal for the amended claim C7. -/
def findOcc (pat : List Char) : List Char → Option Nat
  | [] => if pat.isPrefixOf ([] : List Char) then some 0 else none
  | c :: rest =>
    if pat.isPrefixOf (c :: rest) then some 0
    else (findOcc pat rest).map (· + 1)

/-- Spec-side occurrence removal for the amended claim C7: locate the
leftmost occurrence of pat, keep the text before it, drop the
occurrence, and continue on the text after it; the kept text is never
rescanned. The Nat argument is recursion fuel. -/
def specRemoveAux (pat : List Char) : Nat → List Char → List Char
  | 0, l => l
  | fuel + 1, l =>
    match findOcc pat l with
    | none => l
    | some i => l.take i ++ specRemoveAux pat fuel (l.drop (i + pat.length))

/-- Spec-side removal of every occurrence of pat from l. -/
def specRemoveAll (pat l : List Char) : List Char := specRemoveAux pat l.length l

/-- The extraction function as the amended claim C7 words it: strip
surrounding whitespace, then delete every occurrence of the marker and
then every occurrence of the closing bracket, anywhere in the text. -/
def amendedExtract (r : String) : String :=
  ⟨specRemoveAll "]".data (specRemoveAll "[選択: ".data (stripChars r.data))⟩

/-- Concrete two-round input used by the claim C4 witness. -/
def demoInputs : List RoundInput :=
  [{ user_choice := "グー", response := "[選択: チョキ]", draw := 0 },
   { user_choice := "パー", response := "ぐちゃぐちゃ", draw := 2 }]

/-- Concrete state used by witnesses; the human chose rock. -/
def demoStateRock : GameState :=
  { user_choice := "グー", assistant_choice := "", result := "", history := [] }

/-- Concrete state used by the claim C9 witness; identical history to
demoStateRock but a different human move. -/
def demoStatePaper : GameState :=
  { user_choice := "パー", assistant_choice := "", result := "", history := [] }

/-- Every value of the random fallback is a legal move. -/
theorem randomChoice_mem : ∀ d : Fin 3, randomChoice d ∈ choices := by decide

/-- The move stored by the proposer is always a legal move. -/
theorem pickedMove_mem (response : String) (d : Fin 3) : pickedMove response d ∈ choices := by
  unfold pickedMove
  split
  · assumption
  · exact randomChoice_mem d

/-- The assistant_choice field written by choose_assistant_move is
pickedMove applied to the response the capability returns for the
rendered prompt. -/
theorem choose_assistant_choice (s : GameState) (llm : String → String) (d : Fin 3) :
    (choose_assistant_move s llm d).assistant_choice =
      pickedMove (llm (formatPrompt s.user_choice s.history)) d := rfl

/-- The history written by one round is the old history with exactly
one new record whose index is the old length plus one. -/
theorem playRound_history (u resp : String) (d : Fin 3) (h : List Record) :
    (playRound u resp d h).history =
      h ++ [{ round_index := h.length + 1, user_choice := u,
              assistant_choice := pickedMove resp d,
              result := judgeResult u (pickedMove resp d) }] := rfl

/-- One round grows the history by exactly one record. -/
theorem playRound_history_length (u resp : String) (d : Fin 3) (h : List Record) :
    (playRound u resp d h).history.length = h.length + 1 := by
  rw [playRound_history]; simp

/-- removeAllAux does not depend on the exact fuel, as long as the fuel
covers the length of the input. -/
theorem removeAllAux_fuel (pat : List Char) :
    ∀ f1 : Nat, ∀ (l : List Char) (f2 : Nat), l.length ≤ f1 → l.length ≤ f2 →
      removeAllAux pat f1 l = removeAllAux pat f2 l := by
  intro f1
  induction f1 with
  | zero =>
    intro l f2 h1 _
    have hl : l = [] := by cases l with | nil => rfl | cons c rest => simp at h1
    subst hl
    cases f2 <;> rfl
  | succ g1 ih =>
    intro l f2 h1 h2
    cases l with
    | nil => cases f2 <;> rfl
    | cons c rest =>
      obtain ⟨g2, rfl⟩ : ∃ g2, f2 = g2 + 1 := by
        cases f2 with
        | zero => simp at h2
        | succ g2 => exact ⟨g2, rfl⟩
      simp only [removeAllAux]
      by_cases hc : pat ≠ [] ∧ pat.isPrefixOf (c :: rest)
      · rw [if_pos hc, if_pos hc]
        have hp : 1 ≤ pat.length := by
          rcases hc with ⟨hne, _⟩
          cases pat with
          | nil => simp at hne
          | cons q qs => simp
        apply ih
        · simp only [List.length_drop, List.length_cons]
          simp only [List.length_cons] at h1
          omega
        · simp only [List.length_drop, List.length_cons]
          simp only [List.length_cons] at h2
          omega
      · rw [if_neg hc, if_neg hc]
        refine congrArg (List.cons c) (ih rest g2 ?_ ?_)
        · simp only [List.length_cons] at h1; omega
        · simp only [List.length_cons] at h2; omega

/-- Unfolding equation for removeAll on a nonempty list. -/
theorem removeAll_cons (pat : List Char) (c : Char) (rest : List Char) :
    removeAll pat (c :: rest) =
      if pat ≠ [] ∧ pat.isPrefixOf (c :: rest) then removeAll pat ((c :: rest).drop pat.length)
      else c :: removeAll pat rest := by
  unfold removeAll
  simp only [List.length_cons, removeAllAux]
  by_cases hc : pat ≠ [] ∧ pat.isPrefixOf (c :: rest)
  · rw [if_pos hc, if_pos hc]
    have hp : 1 ≤ pat.length := by
      rcases hc with ⟨hne, _⟩
      cases pat with
      | nil => simp at hne
      | cons q qs => simp
    apply removeAllAux_fuel
    · simp only [List.length_drop, List.length_cons]; omega
    · exact Nat.le_refl _
  · rw [if_neg hc, if_neg hc]

/-- With the empty pattern, removeAll is the identity, matching the
Python behavior of replacing the empty string by the empty string. -/
theorem removeAll_nil_pat : ∀ l : List Char, removeAll ([] : List Char) l = l := by
  have aux : ∀ (l : List Char) (f : Nat), removeAllAux ([] : List Char) f l = l := by
    intro l
    induction l with
    | nil => intro f; cases f <;> rfl
    | cons c rest ih =>
      intro f
      cases f with
      | zero => rfl
      | succ g => simpa [removeAllAux] using ih g
  exact fun l => aux l l.length

/-- The empty pattern is found at position zero everywhere. -/
theorem findOcc_nil_pat : ∀ l : List Char, findOcc ([] : List Char) l = some 0 := by
  intro l
  cases l <;> simp [findOcc, List.isPrefixOf]

/-- A nonempty pattern never occurs in the empty list. -/
theorem findOcc_cons_nilR (p : Char) (ps : List Char) :
    findOcc (p :: ps) ([] : List Char) = none := by
  simp [findOcc, List.isPrefixOf]

/-- If the pattern does not occur, specRemoveAux is the identity. -/
theorem specRemoveAux_none (pat l : List Char) (f : Nat) (h : findOcc pat l = none) :
    specRemoveAux pat f l = l := by
  cases f with
  | zero => rfl
  | succ g => simp [specRemoveAux, h]

/-- Unfolding equation of specRemoveAux at a found occurrence. -/
theorem specRemoveAux_succ_some (pat l : List Char) (f i : Nat)
    (h : findOcc pat l = some i) :
    specRemoveAux pat (f + 1) l = l.take i ++ specRemoveAux pat f (l.drop (i + pat.length)) := by
  simp [specRemoveAux, h]

/-- With the empty pattern, spec-side removal is the identity. -/
theorem specRemoveAux_nil_pat : ∀ (f : Nat) (l : List Char),
    specRemoveAux ([] : List Char) f l = l := by
  intro f
  induction f with
  | zero => intro l; rfl
  | succ g ih =>
    intro l
    rw [specRemoveAux_succ_some _ _ _ _ (findOcc_nil_pat l)]
    simpa using ih l

/-- With the empty pattern, specRemoveAll is the identity. -/
theorem specRemoveAll_nil_pat (l : List Char) : specRemoveAll ([] : List Char) l = l :=
  specRemoveAux_nil_pat l.length l

/-- specRemoveAux does not depend on the exact fuel, as long as the
fuel covers the length of the input. -/
theorem specRemoveAux_fuel (p : Char) (ps : List Char) :
    ∀ f1 : Nat, ∀ (l : List Char) (f2 : Nat), l.length ≤ f1 → l.length ≤ f2 →
      specRemoveAux (p :: ps) f1 l = specRemoveAux (p :: ps) f2 l := by
  intro f1
  induction f1 with
  | zero =>
    intro l f2 h1 _
    have hl : l = [] := by cases l with | nil => rfl | cons c rest => simp at h1
    subst hl
    rw [specRemoveAux_none _ _ _ (findOcc_cons_nilR p ps),
      specRemoveAux_none _ _ _ (findOcc_cons_nilR p ps)]
  | succ g1 ih =>
    intro l f2 h1 h2
    cases hocc : findOcc (p :: ps) l with
    | none => rw [specRemoveAux_none _ _ _ hocc, specRemoveAux_none _ _ _ hocc]
    | some i =>
      have hne : l ≠ [] := by
        rintro rfl
        rw [findOcc_cons_nilR] at hocc
        cases hocc
      have hlen : 1 ≤ l.length := by
        cases l with
        | nil => exact absurd rfl hne
        | cons c rest => simp
      obtain ⟨g2, rfl⟩ : ∃ g2, f2 = g2 + 1 := by
        cases f2 with
        | zero => omega
        | succ g2 => exact ⟨g2, rfl⟩
      rw [specRemoveAux_succ_some _ _ _ _ hocc, specRemoveAux_succ_some _ _ _ _ hocc]
      refine congrArg (l.take i ++ ·) (ih _ g2 ?_ ?_)
      · simp only [List.length_drop, List.length_cons]; omega
      · simp only [List.length_drop, List.length_cons]; omega

/-- Unfolding equation for specRemoveAll on a nonempty list: skip over
a match at the head, otherwise keep the head and continue. -/
theorem specRemoveAll_cons (p c : Char) (ps rest : List Char) :
    specRemoveAll (p :: ps) (c :: rest) =
      if (p :: ps).isPrefixOf (c :: rest) then
        specRemoveAll (p :: ps) ((c :: rest).drop (p :: ps).length)
      else c :: specRemoveAll (p :: ps) rest := by
  by_cases hpre : (p :: ps).isPrefixOf (c :: rest)
  · rw [if_pos hpre]
    have hocc : findOcc (p :: ps) (c :: rest) = some 0 := by simp [findOcc, hpre]
    unfold specRemoveAll
    simp only [List.length_cons]
    rw [specRemoveAux_succ_some _ _ _ _ hocc]
    simp only [List.take_zero, List.nil_append, Nat.zero_add]
    apply specRemoveAux_fuel
    · simp only [List.length_drop, List.length_cons]; omega
    · exact Nat.le_refl _
  · rw [if_neg hpre]
    have hocc : findOcc (p :: ps) (c :: rest) = (findOcc (p :: ps) rest).map (· + 1) := by
      simp [findOcc, hpre]
    cases hr : findOcc (p :: ps) rest with
    | none =>
      have h1 : findOcc (p :: ps) (c :: rest) = none := by rw [hocc, hr]; rfl
      rw [specRemoveAll, specRemoveAux_none _ _ _ h1,
        specRemoveAll, specRemoveAux_none _ _ _ hr]
    | some i =>
      have h1 : findOcc (p :: ps) (c :: rest) = some (i + 1) := by rw [hocc, hr]; rfl
      have hne : rest ≠ [] := by
        rintro rfl
        rw [findOcc_cons_nilR] at hr
        cases hr
      have hlen : 1 ≤ rest.length := by
        cases rest with
        | nil => exact absurd rfl hne
        | cons x xs => simp
      obtain ⟨m, hm⟩ : ∃ m, rest.length = m + 1 := ⟨rest.length - 1, by omega⟩
      unfold specRemoveAll
      simp only [List.length_cons]
      rw [specRemoveAux_succ_some _ _ _ _ h1, hm, specRemoveAux_succ_some _ _ _ _ hr]
      have harith : i + 1 + (p :: ps).length = (i + (p :: ps).length) + 1 := by
        simp only [List.length_cons]; omega
      rw [List.take_succ_cons, harith, List.drop_succ_cons, List.cons_append]
      refine congrArg (List.cons c) (congrArg (rest.take i ++ ·) ?_)
      apply specRemoveAux_fuel
      · simp only [List.length_drop, List.length_cons]; omega
      · simp only [List.length_drop, List.length_cons]; omega

/-- The single-sweep deletion of the source and the find-and-split
removal of the amended specification agree on every pattern and every
input. -/
theorem removeAll_eq_specRemoveAll : ∀ pat l : List Char, removeAll pat l = specRemoveAll pat l := by
  intro pat
  cases pat with
  | nil => intro l; rw [removeAll_nil_pat, specRemoveAll_nil_pat]
  | cons p ps =>
    suffices h : ∀ (n : Nat) (l : List Char), l.length ≤ n →
        removeAll (p :: ps) l = specRemoveAll (p :: ps) l from
      fun l => h l.length l (Nat.le_refl _)
    intro n
    induction n with
    | zero =>
      intro l hl
      have : l = [] := by cases l with | nil => rfl | cons c rest => simp at hl
      subst this
      rfl
    | succ g ih =>
      intro l hl
      cases l with
      | nil => rfl
      | cons c rest =>
        rw [removeAll_cons, specRemoveAll_cons]
        by_cases hpre : (p :: ps).isPrefixOf (c :: rest)
        · rw [if_pos ⟨by simp, hpre⟩, if_pos hpre]
          apply ih
          simp only [List.length_drop, List.length_cons]
          simp only [List.length_cons] at hl
          omega
        · rw [if_neg (fun hcon => hpre hcon.2), if_neg hpre]
          refine congrArg (List.cons c) (ih rest ?_)
          simp only [List.length_cons] at hl
          omega

/-- One legal round preserves the history invariant. -/
theorem goodHistory_step (h : List Record) (u resp : String) (d : Fin 3)
    (hh : goodHistory h) (hu : u ∈ choices) :
    goodHistory ((playRound u resp d h).history) := by
  obtain ⟨hidx, hmem⟩ := hh
  rw [playRound_history]
  constructor
  · rw [List.map_append, hidx]
    simp only [List.map_cons, List.map_nil, List.length_append, List.length_cons,
      List.length_nil, Nat.zero_add]
    rw [List.range'_concat]
    simp [Nat.add_comm]
  · intro r hr
    rcases List.mem_append.mp hr with hmem1 | hmem2
    · exact hmem r hmem1
    · have hreq : r = { round_index := h.length + 1, user_choice := u,
                        assistant_choice := pickedMove resp d,
                        result := judgeResult u (pickedMove resp d) } := by
        simpa using hmem2
      subst hreq
      exact ⟨hu, pickedMove_mem resp d⟩

/-- Sequential legal rounds preserve the history invariant and grow the
history by exactly the number of rounds. -/
theorem goodHistory_playRounds : ∀ (inputs : List RoundInput) (h : List Record),
    goodHistory h → (∀ i ∈ inputs, i.user_choice ∈ choices) →
    goodHistory (playRounds h inputs) ∧
      (playRounds h inputs).length = h.length + inputs.length := by
  intro inputs
  induction inputs with
  | nil => intro h hh _; exact ⟨hh, by simp [playRounds]⟩
  | cons i rest ih =>
    intro h hh hmem
    have hstep := goodHistory_step h i.user_choice i.response i.draw hh (hmem i (by simp))
    obtain ⟨hg, hl⟩ := ih _ hstep (fun j hj => hmem j (by simp [hj]))
    refine ⟨hg, ?_⟩
    have hun : playRounds h (i :: rest) =
        playRounds (playRound i.user_choice i.response i.draw h).history rest := rfl
    rw [hun, hl, playRound_history_length]
    simp only [List.length_cons]
    omega

/-- C1: for every pair of legal moves, the resolver returns the tie
sentence exactly when the moves are equal, the human-win sentence
exactly when the human move beats the opponent move under the fixed
relation, and the human-loss sentence otherwise; concretely rock vs
scissors is a human win, scissors vs rock a human loss, paper vs paper
a tie. -/
theorem claim_C1 (u a : String) (hu : u ∈ choices) (ha : a ∈ choices) :
    (∀ s : GameState, (determine_result_and_update s).result =
      judgeResult s.user_choice s.assistant_choice) ∧
    ((judgeResult u a = "あいこです") ↔ u = a) ∧
    ((judgeResult u a = "あなたの勝ちです") ↔ beats u a) ∧
    ((judgeResult u a = "あなたの負けです") ↔ (u ≠ a ∧ ¬ beats u a)) ∧
    judgeResult "グー" "チョキ" = "あなたの勝ちです" ∧
    judgeResult "チョキ" "グー" = "あなたの負けです" ∧
    judgeResult "パー" "パー" = "あいこです" := by
  refine ⟨fun s => rfl, ?_⟩
  simp only [choices, List.mem_cons, List.not_mem_nil, or_false] at hu ha
  rcases hu with rfl | rfl | rfl <;> rcases ha with rfl | rfl | rfl <;> decide

/-- Witness for C1 at the concrete pair rock versus scissors. -/
theorem claim_C1_witness :
    ("グー" ∈ choices ∧ "チョキ" ∈ choices) ∧
    judgeResult "グー" "チョキ" = "あなたの勝ちです" :=
  ⟨⟨by decide, by decide⟩, (claim_C1 "グー" "チョキ" (by decide) (by decide)).2.2.2.2.1⟩

/-- C2: whatever the state, the completion capability and the random
draw, the move proposer stores a legal move; the extracted candidate is
never returned unchecked. -/
theorem claim_C2 (s : GameState) (llm : String → String) (d : Fin 3) :
    (choose_assistant_move s llm d).assistant_choice ∈ choices := by
  rw [choose_assistant_choice]
  exact pickedMove_mem _ d

/-- C3: the resolver does not fail fast on illegal moves; evaluated at
an illegal pair, it silently computes the tie or loss sentence and
appends a record carrying the illegal move. The claim that it fails
loudly is contradicted by this computation. -/
theorem claim_C3_behavior :
    determine_result_and_update
        { user_choice := "X", assistant_choice := "X", result := "", history := [] } =
      { user_choice := "X", assistant_choice := "X", result := "あいこです",
        history := [{ round_index := 1, user_choice := "X", assistant_choice := "X",
                      result := "あいこです" }] } ∧
    (determine_result_and_update
        { user_choice := "X", assistant_choice := "Y", result := "", history := [] }).result =
      "あなたの負けです" := by decide

/-- C5: every resolver call appends exactly one record, whose index is
the previous length plus one, and the previously existing records stay
untouched in place. -/
theorem claim_C5 (s : GameState) :
    (determine_result_and_update s).history =
      s.history ++ [{ round_index := s.history.length + 1, user_choice := s.user_choice,
                      assistant_choice := s.assistant_choice,
                      result := judgeResult s.user_choice s.assistant_choice }] ∧
    (determine_result_and_update s).history.length = s.history.length + 1 ∧
    (determine_result_and_update s).history.take s.history.length = s.history := by
  refine ⟨rfl, by simp [determine_result_and_update], ?_⟩
  simp [determine_result_and_update]

/-- C6: whenever the extracted candidate is illegal, the proposer
discards it and stores the random draw; the draw-to-move map is a
bijection onto the legal moves, so a uniform draw gives a uniform
move, and the function returns normally with a legal move. -/
theorem claim_C6 (s : GameState) (response : String) (d : Fin 3)
    (hbad : extractChoice response ∉ choices) :
    (choose_assistant_move s (fun _ => response) d).assistant_choice = randomChoice d ∧
    randomChoice d ∈ choices ∧
    (∀ d1 d2 : Fin 3, randomChoice d1 = randomChoice d2 → d1 = d2) ∧
    (∀ m ∈ choices, ∃ d3 : Fin 3, randomChoice d3 = m) := by
  refine ⟨?_, randomChoice_mem d, by decide, by decide⟩
  rw [choose_assistant_choice]
  unfold pickedMove
  rw [if_neg hbad]

/-- Witness for C6 at a garbage response. -/
theorem claim_C6_witness :
    extractChoice "ぐちゃぐちゃ" ∉ choices ∧
    (choose_assistant_move demoStateRock (fun _ => "ぐちゃぐちゃ") 1).assistant_choice =
      randomChoice 1 :=
  ⟨by decide, (claim_C6 demoStateRock "ぐちゃぐちゃ" 1 (by decide)).1⟩

/-- C4: every resolver call assigns the new round index as the history
length before the append plus one, and N sequential rounds with legal
human moves starting from the empty history produce a history of length
N whose indices are exactly 1..N in order and whose move fields are all
legal. -/
theorem claim_C4 (inputs : List RoundInput)
    (hleg : ∀ i ∈ inputs, i.user_choice ∈ choices) :
    (∀ (h : List Record) (u resp : String) (d : Fin 3),
      ((playRound u resp d h).history).map Record.round_index =
        h.map Record.round_index ++ [h.length + 1]) ∧
    (playRounds [] inputs).length = inputs.length ∧
    (playRounds [] inputs).map Record.round_index = List.range' 1 inputs.length ∧
    (∀ r ∈ playRounds [] inputs, r.user_choice ∈ choices ∧ r.assistant_choice ∈ choices) := by
  have hgood : goodHistory ([] : List Record) := by constructor <;> simp
  obtain ⟨⟨hidx, hmem⟩, hlen⟩ := goodHistory_playRounds inputs [] hgood hleg
  simp only [List.length_nil, Nat.zero_add] at hlen
  refine ⟨?_, hlen, ?_, hmem⟩
  · intro h u resp d
    rw [playRound_history]
    simp
  · rw [hidx, hlen]

/-- Witness for C4 at a concrete two-round input list. -/
theorem claim_C4_witness :
    (∀ i ∈ demoInputs, i.user_choice ∈ choices) ∧
    (playRounds [] demoInputs).length = 2 ∧
    (playRounds [] demoInputs).map Record.round_index = [1, 2] :=
  ⟨by decide, (claim_C4 demoInputs (by decide)).2.1,
    (claim_C4 demoInputs (by decide)).2.2.1⟩

/-- C7 as stated is false: the source removes every occurrence of the
marker and of the closing bracket anywhere in the text, not only a
leading marker and a trailing bracket; on this input the two readings
disagree. -/
theorem claim_C7_counterexample :
    extractChoice "[選択: グー]です" = "グーです" ∧
    claimedExtract "[選択: グー]です" = "グー]です" ∧
    extractChoice "[選択: グー]です" ≠ claimedExtract "[選択: グー]です" := by decide

/-- C7 amended: the extraction step equals stripping surrounding
whitespace and then deleting every occurrence of the marker and then
every occurrence of the closing bracket, anywhere in the text, in one
left-to-right sweep each; no other transformation is applied. -/
theorem claim_C7 (r : String) : extractChoice r = amendedExtract r := by
  have h1 := removeAll_eq_specRemoveAll "[選択: ".data (stripChars r.data)
  have h2 := removeAll_eq_specRemoveAll "]".data
    (specRemoveAll "[選択: ".data (stripChars r.data))
  show String.mk (removeAll "]".data (removeAll "[選択: ".data (stripChars r.data))) =
    String.mk (specRemoveAll "]".data (specRemoveAll "[選択: ".data (stripChars r.data)))
  rw [h1, h2]

/-- C8 as stated is false: with the response text carrying the English
marker, the extraction leaves a candidate outside the legal set, so the
fallback fires; with draw zero the proposer stores rock, not
scissors. -/
theorem claim_C8_counterexample :
    extractChoice "[choice: チョキ]" ∉ choices ∧
    (playRound "グー" "[choice: チョキ]" 0 []).assistant_choice = "グー" ∧
    (playRound "グー" "[choice: チョキ]" 0 []).assistant_choice ≠ "チョキ" := by decide

/-- C8 amended: with the empty history, human move rock, and the
completion returning the Japanese-marker text for scissors, the
proposer stores scissors, the resolver reports a human win, and the
appended record is round one, rock versus scissors, human win,
whatever the random draw. -/
theorem claim_C8 : ∀ d : Fin 3,
    (playRound "グー" "[選択: チョキ]" d []).assistant_choice = "チョキ" ∧
    (playRound "グー" "[選択: チョキ]" d []).result = "あなたの勝ちです" ∧
    (playRound "グー" "[選択: チョキ]" d []).history =
      [{ round_index := 1, user_choice := "グー", assistant_choice := "チョキ",
         result := "あなたの勝ちです" }] := by decide

/-- C9: the rendered prompt depends only on the history, never on the
current human move, so two states with equal histories produce the
same prompt and, for the same completion capability and random draw,
the same stored opponent move. -/
theorem claim_C9 (s1 s2 : GameState) (llm : String → String) (d : Fin 3)
    (hh : s1.history = s2.history) :
    formatPrompt s1.user_choice s1.history = formatPrompt s2.user_choice s2.history ∧
    (choose_assistant_move s1 llm d).assistant_choice =
      (choose_assistant_move s2 llm d).assistant_choice := by
  have hp : formatPrompt s1.user_choice s1.history =
      formatPrompt s2.user_choice s2.history := by
    unfold formatPrompt
    rw [hh]
  refine ⟨hp, ?_⟩
  rw [choose_assistant_choice, choose_assistant_choice, hp]

/-- Witness for C9 at two states that differ only in the human move. -/
theorem claim_C9_witness :
    demoStateRock.history = demoStatePaper.history ∧
    (choose_assistant_move demoStateRock (fun _ => "パー") 0).assistant_choice =
      (choose_assistant_move demoStatePaper (fun _ => "パー") 0).assistant_choice :=
  ⟨rfl, (claim_C9 demoStateRock demoStatePaper (fun _ => "パー") 0 rfl).2⟩

/-- C10: when the whitespace-stripped response is exactly a legal move
name with no decoration, the extraction returns it unchanged, it passes
the legality check, and the proposer stores it without invoking the
random fallback. -/
theorem claim_C10 (r : String) (s : GameState) (d : Fin 3)
    (hleg : pyStrip r ∈ choices) :
    extractChoice r = pyStrip r ∧
    extractChoice r ∈ choices ∧
    (choose_assistant_move s (fun _ => r) d).assistant_choice = pyStrip r := by
  have hext : extractChoice r = pyStrip r := by
    simp only [choices, List.mem_cons, List.not_mem_nil, or_false] at hleg
    rcases hleg with h | h | h <;>
      · unfold extractChoice
        rw [h]
        decide
  refine ⟨hext, hext ▸ hleg, ?_⟩
  show pickedMove r d = pyStrip r
  unfold pickedMove
  rw [hext, if_pos hleg]

/-- Witness for C10 at a response that is a legal move name surrounded
by whitespace. -/
theorem claim_C10_witness :
    pyStrip " チョキ " ∈ choices ∧
    extractChoice " チョキ " = pyStrip " チョキ " ∧
    (choose_assistant_move demoStateRock (fun _ => " チョキ ") 2).assistant_choice =
      pyStrip " チョキ " :=
  ⟨by decide, (claim_C10 " チョキ " demoStateRock 2 (by decide)).1,
    (claim_C10 " チョキ " demoStateRock 2 (by decide)).2.2⟩
